import Mathlib

/-!
Verification development for two modules of the `toqito` library:
`matrix_props/positive_semidefinite_rank.py` and
`state_opt/bell_inequality_max.py`.

The Python code builds semidefinite-programming (SDP) problem data and hands
it to an external convex solver (SCS or MOSEK via cvxpy).  Following the
repository's own design document, the solver is an external black box that
consumes problem data and returns a status together with an achieved
objective value; we model it as an oracle function.  All problem data that
the Python code constructs (variables, constraint lists, objective
expressions) is embedded faithfully, loop by loop, over exact rationals.
-/

/-- Solver status as reported by cvxpy (`prob.status`).  `optimal`
corresponds to `cp.OPTIMAL`; all other constructors are non-optimal
terminations. -/
inductive SolverStatus
  | optimal
  | optimalInaccurate
  | infeasible
  | unbounded
  | solverError
deriving DecidableEq

/-- What a single `prob.solve()` call produces: the reported status and the
reported objective value (`prob.value`). -/
structure SolverResult where
  status : SolverStatus
  value : ℚ
deriving DecidableEq

/-- A Python/NumPy 2-D array: a shape together with an entry function
(entries outside the shape are irrelevant). -/
structure PyMat where
  rows : ℕ
  cols : ℕ
  entry : ℕ → ℕ → ℚ

/-- Embedding of `np.all(mat >= 0)`: every in-shape entry is nonnegative. -/
def matNonneg (A : PyMat) : Prop :=
  ∀ i < A.rows, ∀ j < A.cols, 0 ≤ A.entry i j

instance (A : PyMat) : Decidable (matNonneg A) := by
  unfold matNonneg; infer_instance

/-- Modelled from the spec: `is_square` from `toqito.matrix_props` (its
source is not part of this file pair).  The spec describes it as the
square-shape check used as a precondition gate: the matrix has as many rows
as columns. -/
def is_square (A : PyMat) : Prop := A.rows = A.cols

instance (A : PyMat) : Decidable ( is_square A) := by
  unfold is_square; infer_instance

/-- A scalar appearing inside a constraint of the PSD-rank feasibility SDP:
either an entry `X[i,j]` of the cvxpy variable or a numeric constant. -/
inductive PsdExpr
  | var (i j : ℕ)
  | const (c : ℚ)
deriving DecidableEq

/-- One constraint of the PSD-rank feasibility SDP: either
`cp.bmat([[a, b], [c, d]]) >> 0` or `cp.norm(x_var, "nuc") <= k`. -/
inductive PsdConstraint
  | blockPsd (a b c d : PsdExpr)
  | nucNormLe (k : ℚ)
deriving DecidableEq

/-- The full problem data built by `_check_psd_rank` before calling the
solver: the shape of the variable `x_var`, the constraint list, and the
objective (a function of an assignment to the variable entries, embedding
`cp.sum(cp.square(x_var - mat))`). -/
structure CheckProblem where
  varRows : ℕ
  varCols : ℕ
  constraints : List PsdConstraint
  objective : (ℕ → ℕ → ℚ) → ℚ

/-- The solver oracle for the PSD-rank checker: consumes the problem data
and the requested precision (`eps`) and returns status and value. -/
def PsdSolver : Type := CheckProblem → ℚ → SolverResult

/-- Embedding of the problem-construction part of `_check_psd_rank`:
variable `x_var` of shape `(m, n) = mat.shape`; for every `i < m`, `j < n`
(in loop order) one constraint
`cp.bmat([[x_var[i,j], mat[i,j]], [mat[i,j], x_var[j,i]]]) >> 0`;
then one constraint `cp.norm(x_var, "nuc") <= k`; objective
`cp.sum(cp.square(x_var - mat))`. -/
def buildCheckProblem (mat : PyMat) (k : ℕ) : CheckProblem :=
  ⟨mat.rows, mat.cols,
    ((List.range mat.rows).flatMap fun i =>
      (List.range mat.cols).map fun j =>
        PsdConstraint.blockPsd (.var i j) (.const (mat.entry i j))
          (.const (mat.entry i j)) (.var j i))
      ++ [PsdConstraint.nucNormLe (k : ℚ)],
    fun X => ∑ i in Finset.range mat.rows, ∑ j in Finset.range mat.cols,
      (X i j - mat.entry i j) ^ 2⟩

/-- Embedding of `_check_psd_rank(mat, k)`: build the problem, solve it with
`eps = 1e-8`, and report `prob.status == cp.OPTIMAL and prob.value < 1e-6`. -/
def check_psd_rank (solver : PsdSolver) (mat : PyMat) (k : ℕ) : Bool :=
  let r := solver (buildCheckProblem mat k) (mkRat 1 100000000)
  decide (r.status = SolverStatus.optimal ∧ r.value < mkRat 1 1000000)

/-- Embedding of `positive_semidefinite_rank(mat, max_rank)`.  Raising
`ValueError` is modelled by `Except.error` carrying the message.  The search
loop `for k in range(1, max_rank + 1)` returning the first `k` for which
`_check_psd_rank(mat, k)` holds (and `None` when none does) is
`List.find?` over `[1, ..., max_rank]`. -/
def positive_semidefinite_rank (solver : PsdSolver) (mat : PyMat)
    (max_rank : ℤ := 10) : Except String (Option ℕ) :=
  if ¬ matNonneg mat then .error "Matrix must be nonnegative."
  else if ¬ is_square mat then .error "Matrix must be square."
  else .ok ((List.range' 1 max_rank.toNat).find? fun k => check_psd_rank solver mat k)

/-- Decidable equality for `Except`, needed to evaluate the embedded
functions on concrete inputs. -/
instance {e a : Type} [DecidableEq e] [DecidableEq a] : DecidableEq (Except e a) := fun x y =>
  match x, y with
  | .error u, .error v => if h : u = v then .isTrue (by rw [h]) else .isFalse (by simp [h])
  | .ok u, .ok v => if h : u = v then .isTrue (by rw [h]) else .isFalse (by simp [h])
  | .error _, .ok _ => .isFalse (by simp)
  | .ok _, .error _ => .isFalse (by simp)

section SanityChecks

/-- A solver oracle that always reports optimal with value 0. -/
def alwaysOptimalSolver : PsdSolver := fun _ _ => ⟨SolverStatus.optimal, 0⟩

/-- A solver oracle that always reports infeasible. -/
def alwaysInfeasibleSolver : PsdSolver := fun _ _ => ⟨SolverStatus.infeasible, 5⟩

/-- The all-ones 1×1 matrix, used as a concrete valid input. -/
def oneByOneMat : PyMat := ⟨1, 1, fun _ _ => 1⟩

/-- A 1×1 matrix with a negative entry, used as a concrete invalid input. -/
def negMat : PyMat := ⟨1, 1, fun _ _ => -1⟩

/-- A 1×2 (nonsquare) nonnegative matrix, used as a concrete invalid input. -/
def nonsquareMat : PyMat := ⟨1, 2, fun _ _ => 0⟩

example : positive_semidefinite_rank alwaysOptimalSolver oneByOneMat 10 =
    .ok (some 1) := by decide

example : positive_semidefinite_rank alwaysInfeasibleSolver oneByOneMat 3 =
    .ok none := by decide

example : positive_semidefinite_rank alwaysOptimalSolver negMat 10 =
    .error "Matrix must be nonnegative." := by decide

example : positive_semidefinite_rank alwaysOptimalSolver nonsquareMat 10 =
    .error "Matrix must be square." := by decide

example : positive_semidefinite_rank alwaysOptimalSolver oneByOneMat (-3) =
    .ok none := by decide

end SanityChecks

section SearchLemmas

/-- Characterization of `List.find?` over `[s, ..., s+n-1]`: it returns
`some k` exactly when `k` is the least index in the range satisfying the
predicate. -/
theorem find?_range'_eq_some (p : ℕ → Bool) (n : ℕ) :
    ∀ s k : ℕ, ((List.range' s n).find? p = some k ↔
      (p k = true ∧ s ≤ k ∧ k < s + n ∧ ∀ j, s ≤ j → j < k → p j = false)) := by
  induction n with
  | zero =>
    intro s k
    constructor
    · intro h; simp at h
    · rintro ⟨-, h1, h2, -⟩; exfalso; omega
  | succ n ih =>
    intro s k
    rw [List.range'_succ]
    by_cases hp : p s = true
    · rw [List.find?_cons_of_pos _ hp]
      constructor
      · intro h
        injection h with h
        subst h
        exact ⟨hp, le_refl _, by omega, fun j h1 h2 => absurd h2 (by omega)⟩
      · rintro ⟨hk, h1, h2, hmin⟩
        have hks : k = s := by
          by_contra hne
          have hlt : s < k := lt_of_le_of_ne h1 (Ne.symm hne)
          have := hmin s (le_refl _) hlt
          rw [hp] at this
          exact Bool.noConfusion this
        subst hks; rfl
    · rw [List.find?_cons_of_neg _ hp]
      rw [ih (s + 1) k]
      constructor
      · rintro ⟨hk, h1, h2, hmin⟩
        refine ⟨hk, by omega, by omega, fun j hj1 hj2 => ?_⟩
        rcases Nat.eq_or_lt_of_le hj1 with he | hl
        · subst he; simpa using hp
        · exact hmin j hl hj2
      · rintro ⟨hk, h1, h2, hmin⟩
        have hks : k ≠ s := by
          rintro rfl
          exact hp hk
        refine ⟨hk, by omega, by omega, fun j hj1 hj2 => hmin j (by omega) hj2⟩

/-- `List.find?` over `[s, ..., s+n-1]` returns `none` exactly when no
index in the range satisfies the predicate. -/
theorem find?_range'_eq_none (p : ℕ → Bool) (n s : ℕ) :
    ((List.range' s n).find? p = none ↔ ∀ k, s ≤ k → k < s + n → p k = false) := by
  rw [List.find?_eq_none]
  constructor
  · intro h k h1 h2
    have hk : k ∈ List.range' s n := by
      rw [List.mem_range']
      exact ⟨k - s, by omega, by omega⟩
    simpa using h k hk
  · intro h x hx
    rw [List.mem_range'] at hx
    obtain ⟨i, hi, rfl⟩ := hx
    have hres := h (s + 1 * i) (by omega) (by omega)
    simpa using hres

end SearchLemmas

/-- C2: for every nonnegative square matrix and `max_rank ≥ 1`,
`positive_semidefinite_rank` returns (without error) the first
`k ∈ [1, max_rank]` for which the feasibility check succeeds, searching in
increasing order and stopping at the first success; it returns `None` when
no `k` in range succeeds; and the check for a fixed `k` succeeds exactly
when the solver, run at precision `1e-8` on the problem built for `k`,
reports optimal status with value below `1e-6`. -/
theorem C2_rank_search_first_success (solver : PsdSolver) (mat : PyMat)
    (max_rank : ℤ) (hn : matNonneg mat) (hs : is_square mat) (hmr : 1 ≤ max_rank) :
    (∃ res : Option ℕ, positive_semidefinite_rank solver mat max_rank = .ok res ∧
      (∀ k, res = some k →
        check_psd_rank solver mat k = true ∧ 1 ≤ k ∧ (k : ℤ) ≤ max_rank ∧
        ∀ j, 1 ≤ j → j < k → check_psd_rank solver mat j = false) ∧
      (res = none ↔ ∀ k : ℕ, 1 ≤ k → (k : ℤ) ≤ max_rank →
        check_psd_rank solver mat k = false)) ∧
    (∀ k, check_psd_rank solver mat k = true ↔
      ((solver (buildCheckProblem mat k) (mkRat 1 100000000)).status = SolverStatus.optimal ∧
       (solver (buildCheckProblem mat k) (mkRat 1 100000000)).value < mkRat 1 1000000)) := by
  have hres : positive_semidefinite_rank solver mat max_rank =
      .ok ((List.range' 1 max_rank.toNat).find? fun k => check_psd_rank solver mat k) := by
    simp [positive_semidefinite_rank, hn, hs]
  have htn : (max_rank.toNat : ℤ) = max_rank := Int.toNat_of_nonneg (by omega)
  constructor
  · refine ⟨_, hres, ?_, ?_⟩
    · intro k hk
      rw [find?_range'_eq_some] at hk
      obtain ⟨h1, h2, h3, h4⟩ := hk
      exact ⟨h1, h2, by omega, h4⟩
    · rw [find?_range'_eq_none]
      constructor
      · intro h k h1 h2
        exact h k h1 (by omega)
      · intro h k h1 h2
        exact h k h1 (by omega)
  · intro k
    simp [check_psd_rank]

/-- Witness for C2 at the 1×1 all-ones matrix with an always-optimal
solver oracle and `max_rank = 2`. -/
theorem C2_witness :
    matNonneg oneByOneMat ∧ is_square oneByOneMat ∧ (1 : ℤ) ≤ 2 ∧
    ((∃ res : Option ℕ,
        positive_semidefinite_rank alwaysOptimalSolver oneByOneMat 2 = .ok res ∧
        (∀ k, res = some k →
          check_psd_rank alwaysOptimalSolver oneByOneMat k = true ∧ 1 ≤ k ∧ (k : ℤ) ≤ 2 ∧
          ∀ j, 1 ≤ j → j < k → check_psd_rank alwaysOptimalSolver oneByOneMat j = false) ∧
        (res = none ↔ ∀ k : ℕ, 1 ≤ k → (k : ℤ) ≤ 2 →
          check_psd_rank alwaysOptimalSolver oneByOneMat k = false)) ∧
      (∀ k, check_psd_rank alwaysOptimalSolver oneByOneMat k = true ↔
        ((alwaysOptimalSolver (buildCheckProblem oneByOneMat k) (mkRat 1 100000000)).status =
            SolverStatus.optimal ∧
         (alwaysOptimalSolver (buildCheckProblem oneByOneMat k) (mkRat 1 100000000)).value <
            mkRat 1 1000000))) :=
  ⟨by decide, by decide, by decide,
    C2_rank_search_first_success alwaysOptimalSolver oneByOneMat 2
      (by decide) (by decide) (by decide)⟩

/-- C6: a matrix with a negative in-shape entry, or a nonsquare matrix,
makes `positive_semidefinite_rank` fail immediately with the corresponding
input-validation error; the result does not depend on the solver oracle, so
no feasibility SDP is consulted. -/
theorem C6_invalid_input_error (solver : PsdSolver) (mat : PyMat) (max_rank : ℤ)
    (h : (∃ i, i < mat.rows ∧ ∃ j, j < mat.cols ∧ mat.entry i j < 0) ∨
      mat.rows ≠ mat.cols) :
    (positive_semidefinite_rank solver mat max_rank = .error "Matrix must be nonnegative." ∨
     positive_semidefinite_rank solver mat max_rank = .error "Matrix must be square.") ∧
    ∀ solver' : PsdSolver, positive_semidefinite_rank solver' mat max_rank =
      positive_semidefinite_rank solver mat max_rank := by
  by_cases hnn : matNonneg mat
  · have hsq : ¬ is_square mat := by
      rcases h with ⟨i, hi, j, hj, hneg⟩ | hns
      · exact absurd hneg (not_lt.mpr (hnn i hi j hj))
      · exact hns
    refine ⟨Or.inr ?_, fun solver' => ?_⟩ <;>
      simp [positive_semidefinite_rank, hnn, hsq]
  · refine ⟨Or.inl ?_, fun solver' => ?_⟩ <;>
      simp [positive_semidefinite_rank, hnn]

/-- Witness for C6 at the 1×1 matrix with entry −1. -/
theorem C6_witness :
    ((∃ i, i < negMat.rows ∧ ∃ j, j < negMat.cols ∧ negMat.entry i j < 0) ∨
      negMat.rows ≠ negMat.cols) ∧
    ((positive_semidefinite_rank alwaysOptimalSolver negMat 10 =
        .error "Matrix must be nonnegative." ∨
      positive_semidefinite_rank alwaysOptimalSolver negMat 10 =
        .error "Matrix must be square.") ∧
     ∀ solver' : PsdSolver, positive_semidefinite_rank solver' negMat 10 =
       positive_semidefinite_rank alwaysOptimalSolver negMat 10) :=
  ⟨Or.inl ⟨0, by decide, 0, by decide, by decide⟩,
    C6_invalid_input_error alwaysOptimalSolver negMat 10
      (Or.inl ⟨0, by decide, 0, by decide, by decide⟩)⟩

/-- C10: on valid input, any non-`None` result of
`positive_semidefinite_rank` is an integer `k` with `1 ≤ k ≤ max_rank`, and
when `max_rank < 1` the function returns `None` for every solver oracle
(so no feasibility SDP is built or solved). -/
theorem C10_result_bounds (solver : PsdSolver) (mat : PyMat) (max_rank : ℤ)
    (hn : matNonneg mat) (hs : is_square mat) :
    (∀ k : ℕ, positive_semidefinite_rank solver mat max_rank = .ok (some k) →
      1 ≤ k ∧ (k : ℤ) ≤ max_rank) ∧
    (max_rank < 1 →
      ∀ solver' : PsdSolver,
        positive_semidefinite_rank solver' mat max_rank = .ok none) := by
  constructor
  · intro k hk
    have hres : positive_semidefinite_rank solver mat max_rank =
        .ok ((List.range' 1 max_rank.toNat).find? fun j => check_psd_rank solver mat j) := by
      simp [positive_semidefinite_rank, hn, hs]
    rw [hres] at hk
    injection hk with hk
    rw [find?_range'_eq_some] at hk
    obtain ⟨-, h2, h3, -⟩ := hk
    refine ⟨h2, ?_⟩
    omega
  · intro hlt solver'
    have htn : max_rank.toNat = 0 := by omega
    simp [positive_semidefinite_rank, hn, hs, htn]

/-- Witness for C10 at the 1×1 all-ones matrix. -/
theorem C10_witness :
    matNonneg oneByOneMat ∧ is_square oneByOneMat ∧
    ((∀ k : ℕ, positive_semidefinite_rank alwaysOptimalSolver oneByOneMat (-3) = .ok (some k) →
        1 ≤ k ∧ (k : ℤ) ≤ -3) ∧
      ((-3 : ℤ) < 1 →
        ∀ solver' : PsdSolver,
          positive_semidefinite_rank solver' oneByOneMat (-3) = .ok none)) :=
  ⟨by decide, by decide,
    C10_result_bounds alwaysOptimalSolver oneByOneMat (-3) (by decide) (by decide)⟩

section CountingLemmas

/-- `countP` distributes over `flatMap` as a sum of inner counts. -/
theorem countP_flatMap {α β : Type} (p : β → Bool) (l : List α) (f : α → List β) :
    (l.flatMap f).countP p = ((l.map fun a => (f a).countP p).sum) := by
  induction l with
  | nil => simp
  | cons a t ih => simp [List.flatMap_cons, List.countP_append, ih]

/-- Counting occurrences of a fixed value in `List.range n`. -/
theorem countP_range_decide_eq (n j : ℕ) :
    (List.range n).countP (fun x => decide (x = j)) = if j < n then 1 else 0 := by
  induction n with
  | zero => simp
  | succ n ih =>
    rw [List.range_succ, List.countP_append, ih]
    rcases Nat.lt_trichotomy j n with h | h | h
    · have h1 : j < n + 1 := by omega
      have h2 : ¬ (n = j) := by omega
      simp [h, h1, h2]
    · subst h
      have h1 : ¬ (j < j) := by omega
      have h2 : j < j + 1 := by omega
      simp [h1, h2]
    · have h1 : ¬ (j < n) := by omega
      have h2 : ¬ (j < n + 1) := by omega
      have h3 : ¬ (n = j) := by omega
      simp [h1, h2, h3]

/-- Summing an indicator over `List.range n`. -/
theorem sum_map_range_ite (n i e : ℕ) :
    ((List.range n).map fun x => if x = i then e else 0).sum = if i < n then e else 0 := by
  induction n with
  | zero => simp
  | succ n ih =>
    rw [List.range_succ, List.map_append, List.sum_append, ih]
    rcases Nat.lt_trichotomy i n with h | h | h
    · have h1 : i < n + 1 := by omega
      have h2 : ¬ (n = i) := by omega
      simp [h, h1, h2]
    · subst h
      have h1 : ¬ (i < i) := by omega
      have h2 : i < i + 1 := by omega
      simp [h1, h2]
    · have h1 : ¬ (i < n) := by omega
      have h2 : ¬ (i < n + 1) := by omega
      have h3 : ¬ (n = i) := by omega
      simp [h1, h2, h3]

end CountingLemmas

/-- C5: the feasibility SDP built by the checker for matrix `mat` and
candidate rank `k` has variable `X` of the same shape as `mat`, exactly one
2×2-block PSD constraint `[[X_ij, mat_ij], [mat_ij, X_ji]] ⪰ 0` for every
entry `(i, j)`, exactly one nuclear-norm bound `‖X‖_nuc ≤ k`, no other
constraints, and its objective is the sum of squared entries of `X - mat`. -/
theorem C5_check_problem_shape (mat : PyMat) (k : ℕ)
    (hn : matNonneg mat) (hs : is_square mat) :
    (buildCheckProblem mat k).varRows = mat.rows ∧
    (buildCheckProblem mat k).varCols = mat.cols ∧
    (∀ i j, i < mat.rows → j < mat.cols →
      (buildCheckProblem mat k).constraints.countP
        (fun c => decide (c = PsdConstraint.blockPsd (.var i j) (.const (mat.entry i j))
          (.const (mat.entry i j)) (.var j i))) = 1) ∧
    ((buildCheckProblem mat k).constraints.countP
      (fun c => decide (c = PsdConstraint.nucNormLe (k : ℚ))) = 1) ∧
    (∀ c ∈ (buildCheckProblem mat k).constraints,
      c = PsdConstraint.nucNormLe (k : ℚ) ∨
      ∃ i j, i < mat.rows ∧ j < mat.cols ∧
        c = PsdConstraint.blockPsd (.var i j) (.const (mat.entry i j))
          (.const (mat.entry i j)) (.var j i)) ∧
    (∀ X, (buildCheckProblem mat k).objective X =
      ∑ i in Finset.range mat.rows, ∑ j in Finset.range mat.cols,
        (X i j - mat.entry i j) ^ 2) := by
  refine ⟨rfl, rfl, ?_, ?_, ?_, fun X => rfl⟩
  · intro i j hi hj
    show (((List.range mat.rows).flatMap fun i' =>
        (List.range mat.cols).map fun j' =>
          PsdConstraint.blockPsd (.var i' j') (.const (mat.entry i' j'))
            (.const (mat.entry i' j')) (.var j' i'))
        ++ [PsdConstraint.nucNormLe (k : ℚ)]).countP _ = 1
    rw [List.countP_append, countP_flatMap]
    have hinner : ∀ i' : ℕ,
        ((List.range mat.cols).map fun j' =>
            PsdConstraint.blockPsd (.var i' j') (.const (mat.entry i' j'))
              (.const (mat.entry i' j')) (.var j' i')).countP
          (fun c => decide (c = PsdConstraint.blockPsd (.var i j) (.const (mat.entry i j))
            (.const (mat.entry i j)) (.var j i))) =
        if i' = i then (if j < mat.cols then 1 else 0) else 0 := by
      intro i'
      rw [List.countP_map]
      by_cases hii : i' = i
      · subst hii
        rw [if_pos rfl, ← countP_range_decide_eq mat.cols j]
        apply List.countP_congr
        intro j' _
        by_cases hjj : j' = j
        · subst hjj; simp
        · simp [Function.comp, hjj]
      · rw [if_neg hii]
        apply List.countP_eq_zero.mpr
        intro j' _
        simp [Function.comp, hii]
    have hmap : ((List.range mat.rows).map fun i' =>
        ((List.range mat.cols).map fun j' =>
            PsdConstraint.blockPsd (.var i' j') (.const (mat.entry i' j'))
              (.const (mat.entry i' j')) (.var j' i')).countP
          (fun c => decide (c = PsdConstraint.blockPsd (.var i j) (.const (mat.entry i j))
            (.const (mat.entry i j)) (.var j i)))) =
        (List.range mat.rows).map fun i' => if i' = i then (if j < mat.cols then 1 else 0) else 0 :=
      List.map_congr_left fun i' _ => hinner i'
    rw [hmap, sum_map_range_ite]
    simp [hi, hj]
  · show (((List.range mat.rows).flatMap fun i' =>
        (List.range mat.cols).map fun j' =>
          PsdConstraint.blockPsd (.var i' j') (.const (mat.entry i' j'))
            (.const (mat.entry i' j')) (.var j' i'))
        ++ [PsdConstraint.nucNormLe (k : ℚ)]).countP _ = 1
    rw [List.countP_append, countP_flatMap]
    have hz : ((List.range mat.rows).map fun i' =>
        ((List.range mat.cols).map fun j' =>
            PsdConstraint.blockPsd (.var i' j') (.const (mat.entry i' j'))
              (.const (mat.entry i' j')) (.var j' i')).countP
          (fun c => decide (c = PsdConstraint.nucNormLe (k : ℚ)))) =
        (List.range mat.rows).map fun _ => 0 := by
      apply List.map_congr_left
      intro i' _
      apply List.countP_eq_zero.mpr
      intro c hc
      rw [List.mem_map] at hc
      obtain ⟨j', -, rfl⟩ := hc
      simp
    rw [hz]
    simp
  · intro c hc
    have hc2 : c ∈ ((List.range mat.rows).flatMap fun i' =>
        (List.range mat.cols).map fun j' =>
          PsdConstraint.blockPsd (.var i' j') (.const (mat.entry i' j'))
            (.const (mat.entry i' j')) (.var j' i'))
        ++ [PsdConstraint.nucNormLe (k : ℚ)] := hc
    rw [List.mem_append] at hc2
    rcases hc2 with hc | hc
    · rw [List.mem_flatMap] at hc
      obtain ⟨i', hi', hc⟩ := hc
      rw [List.mem_map] at hc
      obtain ⟨j', hj', rfl⟩ := hc
      rw [List.mem_range] at hi' hj'
      exact Or.inr ⟨i', j', hi', hj', rfl⟩
    · left
      simpa using hc

/-- Witness for C5 at the 1×1 all-ones matrix and `k = 1`. -/
theorem C5_witness :
    matNonneg oneByOneMat ∧ is_square oneByOneMat ∧
    ((buildCheckProblem oneByOneMat 1).varRows = oneByOneMat.rows ∧
     (buildCheckProblem oneByOneMat 1).varCols = oneByOneMat.cols ∧
     (∀ i j, i < oneByOneMat.rows → j < oneByOneMat.cols →
       (buildCheckProblem oneByOneMat 1).constraints.countP
         (fun c => decide (c = PsdConstraint.blockPsd (.var i j)
           (.const (oneByOneMat.entry i j))
           (.const (oneByOneMat.entry i j)) (.var j i))) = 1) ∧
     ((buildCheckProblem oneByOneMat 1).constraints.countP
       (fun c => decide (c = PsdConstraint.nucNormLe ((1 : ℕ) : ℚ))) = 1) ∧
     (∀ c ∈ (buildCheckProblem oneByOneMat 1).constraints,
       c = PsdConstraint.nucNormLe ((1 : ℕ) : ℚ) ∨
       ∃ i j, i < oneByOneMat.rows ∧ j < oneByOneMat.cols ∧
         c = PsdConstraint.blockPsd (.var i j) (.const (oneByOneMat.entry i j))
           (.const (oneByOneMat.entry i j)) (.var j i)) ∧
     (∀ X, (buildCheckProblem oneByOneMat 1).objective X =
       ∑ i in Finset.range oneByOneMat.rows, ∑ j in Finset.range oneByOneMat.cols,
         (X i j - oneByOneMat.entry i j) ^ 2)) :=
  ⟨by decide, by decide, C5_check_problem_shape oneByOneMat 1 (by decide) (by decide)⟩

/-- Index of the `2^(m+1)`-dimensional single-party space of
`bell_inequality_max`: a tuple of `m + 1` qubit basis labels (the space is a
tensor product of `m + 1` dimension-2 subsystems). -/
abbrev BIdx (m : ℕ) := Fin (m + 1) → Fin 2

/-- Rational square matrices on the single-party space. -/
abbrev PartyMat (m : ℕ) := Matrix (BIdx m) (BIdx m) ℚ

/-- Rational square matrices on the two-party space (`2^(2m+2)`-dimensional,
the index being a pair of single-party indices in Kronecker order). -/
abbrev JointMat (m : ℕ) := Matrix (BIdx m × BIdx m) (BIdx m × BIdx m) ℚ

/-- The 0/1 matrix that relabels tensor factors along the position map `τ`:
entry `(f, g)` is 1 exactly when the basis tuple `f` is the relabeling of
`g` along `τ`. -/
def permOfFun {m : ℕ} (τ : Fin (m + 1) → Fin (m + 1)) : PartyMat m :=
  Matrix.of fun f g => if ∀ i, f i = g (τ i) then 1 else 0

/-- Read a Python permutation list as a map on subsystem positions
(out-of-range entries fall back to the identity; never exercised by the
lists `MN_matrix` builds). -/
def listToPos (m : ℕ) (perm : List ℕ) (i : Fin (m + 1)) : Fin (m + 1) :=
  if h : perm.getD i.val i.val < m + 1 then ⟨perm.getD i.val i.val, h⟩ else i

/-- Modelled from the spec: `permutation_operator(dims, perm, inv, sparse)`
from `toqito.perms`, whose source is not part of this file pair, specialized
to `dims = [2] * (m + 1)` as `MN_matrix` calls it.  The spec describes the
output as the 0/1 permutation matrix implementing "relabel subsystem `i` as
subsystem `perm(i)`" on the full tensor space; the `inv = False` and
sparsity flags do not change the matrix. -/
def permutation_operator (m : ℕ) (perm : List ℕ) : PartyMat m :=
  permOfFun (listToPos m perm)

/-- The permutation operator attached to a permutation `σ` of subsystem
positions, the form in which the spec states the `MN_matrix` construction
(to be compared with the list-surgery construction in the source). -/
def permOpOfPerm (m : ℕ) (σ : Equiv.Perm (Fin (m + 1))) : PartyMat m :=
  permOfFun σ

/-- Embedding of `MN_matrix(m, a, x)`: build the list
`perm = list(range(m + 1)); perm[0] = x; perm[x] = 0` and return
`a * eye(2^(m+1)) + (-1)^a * permutation_operator([2]*(m+1), perm, 0, 1)`. -/
def MN_matrix (m a x : ℕ) : PartyMat m :=
  (a : ℚ) • (1 : PartyMat m) +
    ((-1 : ℚ) ^ a) • permutation_operator m (((List.range (m + 1)).set 0 x).set x 0)

/-- Embedding of `np.kron` for square matrices in tensor-index form: the
Kronecker product on the product index type. -/
def kron {α β : Type} (A : Matrix α α ℚ) (B : Matrix β β ℚ) :
    Matrix (α × β) (α × β) ℚ :=
  Matrix.of fun p q => A p.1 q.1 * B p.2 q.2

/-- Embedding of the accumulation of `b_coeff` inside the objective loop of
`bell_inequality_max`: the joint term, then `+= a_coe[x-1] * a_val[a]` when
`y == 1`, then `+= b_coe[y-1] * b_val[b]` when `x == 1`. -/
def bellCoeff (joint_coe : List (List ℚ)) (a_coe b_coe a_val b_val : List ℚ)
    (a b x y : ℕ) : ℚ :=
  let c0 := (joint_coe.getD (x - 1) []).getD (y - 1) 0 * a_val.getD a 0 * b_val.getD b 0
  let c1 := if y = 1 then c0 + a_coe.getD (x - 1) 0 * a_val.getD a 0 else c0
  if x = 1 then c1 + b_coe.getD (y - 1) 0 * b_val.getD b 0 else c1

/-- Embedding of the nested loops
`for a in range(2): for b in range(2): for x in range(1, m+1): for y in
range(1, m+1): obj_mat += b_coeff * np.kron(MN_matrix(m,a,x), MN_matrix(m,b,y))`
starting from `np.zeros((tot_dim, tot_dim))`. -/
def bellObjRaw (joint_coe : List (List ℚ)) (a_coe b_coe a_val b_val : List ℚ) :
    JointMat joint_coe.length :=
  (List.range 2).foldl (fun acc a =>
    (List.range 2).foldl (fun acc b =>
      (List.range' 1 joint_coe.length).foldl (fun acc x =>
        (List.range' 1 joint_coe.length).foldl (fun acc y =>
          acc + bellCoeff joint_coe a_coe b_coe a_val b_val a b x y •
            kron (MN_matrix joint_coe.length a x) (MN_matrix joint_coe.length b y))
          acc) acc) acc) 0

/-- Embedding of the symmetrization `obj_mat = (obj_mat + obj_mat.T) / 2`. -/
def bellObjMat (joint_coe : List (List ℚ)) (a_coe b_coe a_val b_val : List ℚ) :
    JointMat joint_coe.length :=
  ((1 : ℚ) / 2) • (bellObjRaw joint_coe a_coe b_coe a_val b_val +
    Matrix.transpose (bellObjRaw joint_coe a_coe b_coe a_val b_val))

/-- Embedding of `aux_mat`: the 4×4 matrix with a single 1 in the top-left
corner. -/
def auxMat : Matrix (Fin 4) (Fin 4) ℚ :=
  Matrix.of fun i j => if i = 0 ∧ j = 0 then 1 else 0

/-- Symbolic cvxpy expression built from the SDP variable `W` by the
reindexing steps of `bell_inequality_max` (`swap` from `toqito.perms` and
`cp.kron` with `aux_mat`); the reindexing collaborators are outside this
file pair and the solver consumes the expression as data, so they are kept
symbolic. -/
inductive BellExpr
  | W
  | swapExpr (e : BellExpr) (sys : List ℕ) (dims : List ℕ)
  | kronAux (e : BellExpr) (aux : Matrix (Fin 4) (Fin 4) ℚ)

/-- One constraint of the Bell SDP: `cp.trace(W) == 1`, `W >> 0`, or one PPT
constraint `partial_transpose(W, subset, dims) >> 0` (the transpose itself
is data consumed by the solver; the subset and dimension list identify the
constraint). -/
inductive BellConstraint
  | traceEqOne
  | wPsd
  | pptPsd (subset : List ℕ) (dims : List ℕ)
deriving DecidableEq

/-- The SDP problem data assembled by `bell_inequality_max` and handed to
the solver: the symmetric matrix variable `W` of dimension `2^(2m)`, the
reindexed expression `Z`, the objective matrix of
`cp.Maximize(cp.trace(Z @ obj_mat))`, and the constraint list. -/
structure BellSDP (m : ℕ) where
  varDim : ℕ
  varSymmetric : Bool
  zExpr : BellExpr
  objMat : JointMat m
  constraints : List BellConstraint

/-- Embedding of the PPT-subset generation
`for sz in range(1, m + 1): for p in combinations(range(1, 2 * m - 1), sz)`,
each subset then shifted down by one (`[x - 1 for x in p]`).
`itertools.combinations` enumerates every size-`sz` subsequence of its
input exactly once; `List.sublistsLen` enumerates the same subsequences
(in a different order, which no claim depends on). -/
def pptSubsets (m : ℕ) : List (List ℕ) :=
  (List.range' 1 m).flatMap fun sz =>
    (List.sublistsLen sz (List.range' 1 (2 * m - 2))).map fun l => l.map fun t => t - 1

/-- Embedding of the SDP assembly in `bell_inequality_max`: the variable
`W = cp.Variable((2^(2m), 2^(2m)), symmetric=True)`, the chained swap
reindexing producing `Z`, the symmetrized objective matrix, and the
constraints `[trace(W) == 1, W >> 0]` followed by one PPT constraint
`partial_transpose(W, subset, [4] + [2] * (2 * (m - 1))) >> 0` per generated
subset. -/
def bell_sdp (joint_coe : List (List ℚ)) (a_coe b_coe a_val b_val : List ℚ) :
    BellSDP joint_coe.length :=
  ⟨2 ^ (2 * joint_coe.length), true,
    .swapExpr (.swapExpr (.kronAux (.swapExpr .W [2, joint_coe.length + 1]
          (List.replicate (2 * joint_coe.length) 2)) auxMat)
        [joint_coe.length + 1, 2 * joint_coe.length + 1]
        (List.replicate (2 * joint_coe.length + 2) 2))
      [joint_coe.length + 2, 2 * joint_coe.length + 1]
      (List.replicate (2 * joint_coe.length + 2) 2),
    bellObjMat joint_coe a_coe b_coe a_val b_val,
    [BellConstraint.traceEqOne, BellConstraint.wPsd] ++
      (pptSubsets joint_coe.length).map fun S =>
        BellConstraint.pptPsd S (4 :: List.replicate (2 * (joint_coe.length - 1)) 2)⟩

/-- Embedding of `bell_inequality_max`: after the outcome-length check
(raising `ValueError`, modelled as `Except.error`, when `len(a_val) != 2 or
len(b_val) != 2`), assemble the SDP, solve it, and return `prob.value`. -/
def bell_inequality_max (joint_coe : List (List ℚ)) (a_coe b_coe a_val b_val : List ℚ)
    (solver : BellSDP joint_coe.length → SolverResult) : Except String ℚ :=
  if a_val.length ≠ 2 ∨ b_val.length ≠ 2 then
    .error "This script is only capable of handling Bell inequalities with two outcomes."
  else .ok (solver (bell_sdp joint_coe a_coe b_coe a_val b_val)).value

section BellConcrete

/-- Concrete 1×1 joint-coefficient matrix (one measurement setting). -/
def joint1 : List (List ℚ) := [[1]]

/-- Concrete length-1 marginal-coefficient vector. -/
def coe1 : List ℚ := [0]

/-- Concrete outcome-value vector `[0, 1]` of the valid length 2. -/
def val01 : List ℚ := [0, 1]

/-- Concrete outcome-value vector of invalid length 3. -/
def val3 : List ℚ := [0, 1, 2]

/-- A Bell-side solver oracle that always reports infeasible with value −5. -/
def bellInfeasibleSolver (m : ℕ) : BellSDP m → SolverResult :=
  fun _ => ⟨SolverStatus.infeasible, -5⟩

/-- A Bell-side solver oracle that always reports optimal with value 7. -/
def bellOptimalSolver (m : ℕ) : BellSDP m → SolverResult :=
  fun _ => ⟨SolverStatus.optimal, 7⟩

end BellConcrete

/-- C7: `bell_inequality_max` errors out exactly when `a_val` or `b_val`
does not have length 2; the error is produced before any SDP is assembled or
solved (the result is then the same for every solver oracle); it proceeds to
a numeric result exactly when both lengths are 2. -/
theorem C7_outcome_length_check (joint_coe : List (List ℚ))
    (a_coe b_coe a_val b_val : List ℚ)
    (solver : BellSDP joint_coe.length → SolverResult) :
    ((∃ q, bell_inequality_max joint_coe a_coe b_coe a_val b_val solver = .ok q) ↔
      (a_val.length = 2 ∧ b_val.length = 2)) ∧
    (a_val.length ≠ 2 ∨ b_val.length ≠ 2 →
      ∀ solver' : BellSDP joint_coe.length → SolverResult,
        bell_inequality_max joint_coe a_coe b_coe a_val b_val solver' =
          .error "This script is only capable of handling Bell inequalities with two outcomes.") := by
  by_cases h : a_val.length ≠ 2 ∨ b_val.length ≠ 2
  · constructor
    · constructor
      · rintro ⟨q, hq⟩
        rw [bell_inequality_max, if_pos h] at hq
        exact Except.noConfusion hq
      · rintro ⟨h1, h2⟩
        exact absurd h (by simp [h1, h2])
    · intro _ solver'
      rw [bell_inequality_max, if_pos h]
  · constructor
    · constructor
      · rintro -
        constructor <;> omega
      · rintro -
        exact ⟨_, by rw [bell_inequality_max, if_neg h]⟩
    · intro hcon
      exact absurd hcon h

/-- Witness-style closed instance for C7 (its statement carries an inner
implication): at concrete valid-length inputs the equivalence holds. -/
theorem C7_witness :
    ((∃ q, bell_inequality_max joint1 coe1 coe1 val01 val01
        (bellOptimalSolver joint1.length) = .ok q) ↔
      (val01.length = 2 ∧ val01.length = 2)) ∧
    (val01.length ≠ 2 ∨ val01.length ≠ 2 →
      ∀ solver' : BellSDP joint1.length → SolverResult,
        bell_inequality_max joint1 coe1 coe1 val01 val01 solver' =
          .error "This script is only capable of handling Bell inequalities with two outcomes.") :=
  C7_outcome_length_check joint1 coe1 coe1 val01 val01 (bellOptimalSolver joint1.length)

/-- C1 counterexample: with both outcome vectors of the valid length 2 and a
solver oracle reporting a non-optimal (infeasible) status,
`bell_inequality_max` still returns the numeric value reported by the
solver (−5) instead of failing — refuting the claim that a numeric value is
returned only under an optimal status. -/
theorem C1_counterexample :
    val01.length = 2 ∧
    (bellInfeasibleSolver joint1.length
        (bell_sdp joint1 coe1 coe1 val01 val01)).status ≠ SolverStatus.optimal ∧
    bell_inequality_max joint1 coe1 coe1 val01 val01 (bellInfeasibleSolver joint1.length) =
      .ok (-5) := by
  refine ⟨rfl, by decide, ?_⟩
  rw [bell_inequality_max, if_neg (by simp [val01])]
  rfl

/-- C1 amended: on valid input (both outcome vectors of length 2),
`bell_inequality_max` returns `prob.value` — the solver's reported objective
value — unconditionally, for every solver status; it performs no status
check after solving, so a non-optimal status is not reported to the caller
(only exceptions raised inside the solver itself would propagate). -/
theorem C1_amended_returns_value_unconditionally (joint_coe : List (List ℚ))
    (a_coe b_coe a_val b_val : List ℚ)
    (solver : BellSDP joint_coe.length → SolverResult)
    (ha : a_val.length = 2) (hb : b_val.length = 2) :
    bell_inequality_max joint_coe a_coe b_coe a_val b_val solver =
      .ok (solver (bell_sdp joint_coe a_coe b_coe a_val b_val)).value := by
  rw [bell_inequality_max, if_neg (by simp [ha, hb])]

/-- Witness for the amended C1 at concrete inputs with an infeasible-reporting
solver oracle. -/
theorem C1_witness :
    val01.length = 2 ∧ val01.length = 2 ∧
    bell_inequality_max joint1 coe1 coe1 val01 val01 (bellInfeasibleSolver joint1.length) =
      .ok ((bellInfeasibleSolver joint1.length)
        (bell_sdp joint1 coe1 coe1 val01 val01)).value :=
  ⟨rfl, rfl,
    C1_amended_returns_value_unconditionally joint1 coe1 coe1 val01 val01
      (bellInfeasibleSolver joint1.length) rfl rfl⟩

/-- The value of `listToPos` as a plain conditional on naturals. -/
theorem listToPos_val (m : ℕ) (p : List ℕ) (i : Fin (m + 1)) :
    (listToPos m p i).val =
      if p.getD i.val i.val < m + 1 then p.getD i.val i.val else i.val := by
  unfold listToPos
  by_cases h : p.getD i.val i.val < m + 1
  · rw [dif_pos h, if_pos h]
  · rw [dif_neg h, if_neg h]

/-- The list surgery `perm = list(range(m+1)); perm[0] = x; perm[x] = 0`
performed by `MN_matrix` represents exactly the transposition of subsystem
positions `0` and `x`. -/
theorem listToPos_swap (m x : ℕ) (hx : x ≤ m) :
    listToPos m (((List.range (m + 1)).set 0 x).set x 0) =
      ⇑(Equiv.swap (0 : Fin (m + 1)) ⟨x, Nat.lt_succ_of_le hx⟩) := by
  funext i
  have hiv : i.val < (((List.range (m + 1)).set 0 x).set x 0).length := by
    simpa using i.isLt
  have hget : (((List.range (m + 1)).set 0 x).set x 0).getD i.val i.val =
      if x = i.val then 0 else if 0 = i.val then x else i.val := by
    rw [List.getD_eq_getElem?_getD, List.getElem?_eq_getElem hiv]
    simp only [List.getElem_set, List.getElem_range, Option.getD_some]
  apply Fin.ext
  rw [listToPos_val, hget]
  by_cases hxi : x = i.val
  · rw [if_pos hxi, if_pos (Nat.succ_pos m)]
    have hieq : i = (⟨x, Nat.lt_succ_of_le hx⟩ : Fin (m + 1)) := Fin.ext hxi.symm
    rw [hieq, Equiv.swap_apply_right]
    simp
  · rw [if_neg hxi]
    by_cases h0i : 0 = i.val
    · rw [if_pos h0i, if_pos (Nat.lt_succ_of_le hx)]
      have hieq : i = (0 : Fin (m + 1)) := Fin.ext (by simp [← h0i])
      rw [hieq, Equiv.swap_apply_left]
    · rw [if_neg h0i, if_pos i.isLt]
      have hne0 : i ≠ (0 : Fin (m + 1)) := fun hc => h0i (by rw [hc]; simp)
      have hnex : i ≠ (⟨x, Nat.lt_succ_of_le hx⟩ : Fin (m + 1)) :=
        fun hc => hxi (by rw [hc])
      rw [Equiv.swap_apply_of_ne_of_ne hne0 hnex]

/-- The permutation operator of the identity relabeling is the identity
matrix. -/
theorem permOfFun_id (m : ℕ) : permOfFun (m := m) id = 1 := by
  ext f g
  simp only [permOfFun, Matrix.of_apply, Matrix.one_apply, id]
  by_cases h : f = g
  · simp [h]
  · rw [if_neg (fun hall => h (funext hall)), if_neg h]

/-- C8: `MN_matrix(m, a, x)` (a pure function of its arguments) equals
`a · I + (-1)^a · P` on the `2^(m+1)`-dimensional space, where `P` is the
permutation operator of the transposition exchanging subsystem positions
`0` and `x`; when `x = 0` that permutation is the identity, so `P = I`. -/
theorem C8_MN_matrix_form (m a x : ℕ) (hx : x ≤ m) (ha : a ≤ 1) :
    MN_matrix m a x =
      (a : ℚ) • (1 : PartyMat m) +
        ((-1 : ℚ) ^ a) • permOpOfPerm m (Equiv.swap 0 ⟨x, Nat.lt_succ_of_le hx⟩) ∧
    (x = 0 → MN_matrix m a x =
      (a : ℚ) • (1 : PartyMat m) + ((-1 : ℚ) ^ a) • (1 : PartyMat m)) ∧
    Fintype.card (BIdx m) = 2 ^ (m + 1) := by
  have hperm : permutation_operator m (((List.range (m + 1)).set 0 x).set x 0) =
      permOpOfPerm m (Equiv.swap 0 ⟨x, Nat.lt_succ_of_le hx⟩) := by
    unfold permutation_operator permOpOfPerm
    rw [listToPos_swap m x hx]
  refine ⟨?_, ?_, ?_⟩
  · rw [MN_matrix, hperm]
  · intro hx0
    subst hx0
    rw [MN_matrix, hperm]
    have h0 : (⟨0, Nat.lt_succ_of_le hx⟩ : Fin (m + 1)) = 0 := Fin.ext (by simp)
    rw [h0, Equiv.swap_self, permOpOfPerm]
    rw [show ⇑(Equiv.refl (Fin (m + 1))) = id from rfl, permOfFun_id]
  · rw [show Fintype.card (BIdx m) = Fintype.card (Fin 2) ^ Fintype.card (Fin (m + 1))
      from Fintype.card_fun]
    simp

/-- Witness for C8 at `m = 1`, `a = 1`, `x = 1`. -/
theorem C8_witness :
    (1 : ℕ) ≤ 1 ∧ (1 : ℕ) ≤ 1 ∧
    (MN_matrix 1 1 1 =
      ((1 : ℕ) : ℚ) • (1 : PartyMat 1) +
        ((-1 : ℚ) ^ (1 : ℕ)) • permOpOfPerm 1 (Equiv.swap 0 ⟨1, by decide⟩) ∧
    ((1 : ℕ) = 0 → MN_matrix 1 1 1 =
      ((1 : ℕ) : ℚ) • (1 : PartyMat 1) + ((-1 : ℚ) ^ (1 : ℕ)) • (1 : PartyMat 1)) ∧
    Fintype.card (BIdx 1) = 2 ^ (1 + 1)) :=
  ⟨le_refl 1, le_refl 1, C8_MN_matrix_form 1 1 1 (le_refl 1) (le_refl 1)⟩

section SumLemmas

/-- A left fold that only accumulates additions equals the starting value
plus the list sum. -/
theorem foldl_add_eq_sum {α M : Type} [AddCommMonoid M] (f : α → M) (l : List α) (A : M) :
    l.foldl (fun acc t => acc + f t) A = A + (l.map f).sum := by
  induction l generalizing A with
  | nil => simp
  | cons a t ih => simp [ih, add_assoc]

/-- Sum over `range' s n` as a `Finset.range` sum of shifted indices. -/
theorem sum_map_range'_shift {M : Type} [AddCommMonoid M] (f : ℕ → M) (n : ℕ) :
    ∀ s, ((List.range' s n).map f).sum = ∑ i in Finset.range n, f (s + i) := by
  induction n with
  | zero => intro s; simp
  | succ n ih =>
    intro s
    rw [List.range'_succ, List.map_cons, List.sum_cons, ih (s + 1),
      Finset.sum_range_succ']
    have h2 : ∀ i, s + 1 + i = s + (i + 1) := fun i => by omega
    rw [Finset.sum_congr rfl (fun i _ => by rw [h2 i])]
    rw [add_comm]
    simp

/-- Sum over `List.range n` as a `Finset.range` sum. -/
theorem sum_map_range {M : Type} [AddCommMonoid M] (f : ℕ → M) (n : ℕ) :
    ((List.range n).map f).sum = ∑ i in Finset.range n, f i := by
  rw [List.range_eq_range', sum_map_range'_shift]
  simp

/-- Sum over the loop range `range(1, n + 1)` as a sum over the interval
`[1, n]`. -/
theorem sum_map_range'_Icc {M : Type} [AddCommMonoid M] (f : ℕ → M) (n : ℕ) :
    ((List.range' 1 n).map f).sum = ∑ x in Finset.Icc 1 n, f x := by
  simp only [Nat.Icc_eq_range', Nat.add_sub_cancel]
  rfl

end SumLemmas

/-- The sequentially accumulated coefficient `b_coeff` equals the joint term
plus the two conditional marginal terms. -/
theorem bellCoeff_eq (joint_coe : List (List ℚ)) (a_coe b_coe a_val b_val : List ℚ)
    (a b x y : ℕ) :
    bellCoeff joint_coe a_coe b_coe a_val b_val a b x y =
      (joint_coe.getD (x - 1) []).getD (y - 1) 0 * a_val.getD a 0 * b_val.getD b 0
        + (if y = 1 then a_coe.getD (x - 1) 0 * a_val.getD a 0 else 0)
        + (if x = 1 then b_coe.getD (y - 1) 0 * b_val.getD b 0 else 0) := by
  unfold bellCoeff
  by_cases hy : y = 1 <;> by_cases hx : x = 1 <;> simp [hy, hx] <;> ring

/-- C4: the accumulated objective matrix equals the quadruple sum over
`a, b ∈ {0, 1}` and `x, y ∈ [1, m]` of
`coeff(a,b,x,y) · MN(m,a,x) ⊗ MN(m,b,y)`, with
`coeff = joint_coe[x-1,y-1]·a_val[a]·b_val[b]`, plus `a_coe[x-1]·a_val[a]`
exactly when `y = 1`, plus `b_coe[y-1]·b_val[b]` exactly when `x = 1`; the
operator used by the SDP is then the symmetrization `(M + Mᵀ) / 2`. -/
theorem C4_bell_objective_assembly (joint_coe : List (List ℚ))
    (a_coe b_coe a_val b_val : List ℚ)
    (ha : a_val.length = 2) (hb : b_val.length = 2) :
    (bellObjRaw joint_coe a_coe b_coe a_val b_val =
      ∑ a in Finset.range 2, ∑ b in Finset.range 2,
        ∑ x in Finset.Icc 1 joint_coe.length, ∑ y in Finset.Icc 1 joint_coe.length,
          ((joint_coe.getD (x - 1) []).getD (y - 1) 0 * a_val.getD a 0 * b_val.getD b 0
            + (if y = 1 then a_coe.getD (x - 1) 0 * a_val.getD a 0 else 0)
            + (if x = 1 then b_coe.getD (y - 1) 0 * b_val.getD b 0 else 0)) •
            kron (MN_matrix joint_coe.length a x) (MN_matrix joint_coe.length b y)) ∧
    bellObjMat joint_coe a_coe b_coe a_val b_val =
      ((1 : ℚ) / 2) • (bellObjRaw joint_coe a_coe b_coe a_val b_val +
        Matrix.transpose (bellObjRaw joint_coe a_coe b_coe a_val b_val)) := by
  refine ⟨?_, rfl⟩
  unfold bellObjRaw
  have h3 : ∀ (A : JointMat joint_coe.length) (a b : ℕ),
      (List.range' 1 joint_coe.length).foldl (fun acc x =>
        (List.range' 1 joint_coe.length).foldl (fun acc y =>
          acc + bellCoeff joint_coe a_coe b_coe a_val b_val a b x y •
            kron (MN_matrix joint_coe.length a x) (MN_matrix joint_coe.length b y)) acc) A =
      A + ((List.range' 1 joint_coe.length).map fun x =>
        ((List.range' 1 joint_coe.length).map fun y =>
          bellCoeff joint_coe a_coe b_coe a_val b_val a b x y •
            kron (MN_matrix joint_coe.length a x)
              (MN_matrix joint_coe.length b y)).sum).sum := by
    intro A a b
    have hfn : (fun (acc : JointMat joint_coe.length) x =>
        (List.range' 1 joint_coe.length).foldl (fun acc y =>
          acc + bellCoeff joint_coe a_coe b_coe a_val b_val a b x y •
            kron (MN_matrix joint_coe.length a x) (MN_matrix joint_coe.length b y)) acc) =
        (fun acc x => acc + ((List.range' 1 joint_coe.length).map fun y =>
          bellCoeff joint_coe a_coe b_coe a_val b_val a b x y •
            kron (MN_matrix joint_coe.length a x)
              (MN_matrix joint_coe.length b y)).sum) := by
      funext acc x
      exact foldl_add_eq_sum _ _ acc
    rw [hfn]
    exact foldl_add_eq_sum _ _ A
  have h2 : ∀ (A : JointMat joint_coe.length) (a : ℕ),
      (List.range 2).foldl (fun acc b =>
        (List.range' 1 joint_coe.length).foldl (fun acc x =>
          (List.range' 1 joint_coe.length).foldl (fun acc y =>
            acc + bellCoeff joint_coe a_coe b_coe a_val b_val a b x y •
              kron (MN_matrix joint_coe.length a x)
                (MN_matrix joint_coe.length b y)) acc) acc) A =
      A + ((List.range 2).map fun b =>
        ((List.range' 1 joint_coe.length).map fun x =>
          ((List.range' 1 joint_coe.length).map fun y =>
            bellCoeff joint_coe a_coe b_coe a_val b_val a b x y •
              kron (MN_matrix joint_coe.length a x)
                (MN_matrix joint_coe.length b y)).sum).sum).sum := by
    intro A a
    have hfn : (fun (acc : JointMat joint_coe.length) b =>
        (List.range' 1 joint_coe.length).foldl (fun acc x =>
          (List.range' 1 joint_coe.length).foldl (fun acc y =>
            acc + bellCoeff joint_coe a_coe b_coe a_val b_val a b x y •
              kron (MN_matrix joint_coe.length a x)
                (MN_matrix joint_coe.length b y)) acc) acc) =
        (fun acc b => acc + ((List.range' 1 joint_coe.length).map fun x =>
          ((List.range' 1 joint_coe.length).map fun y =>
            bellCoeff joint_coe a_coe b_coe a_val b_val a b x y •
              kron (MN_matrix joint_coe.length a x)
                (MN_matrix joint_coe.length b y)).sum).sum) := by
      funext acc b
      exact h3 acc a b
    rw [hfn]
    exact foldl_add_eq_sum _ _ A
  have h1 : (List.range 2).foldl (fun acc a =>
      (List.range 2).foldl (fun acc b =>
        (List.range' 1 joint_coe.length).foldl (fun acc x =>
          (List.range' 1 joint_coe.length).foldl (fun acc y =>
            acc + bellCoeff joint_coe a_coe b_coe a_val b_val a b x y •
              kron (MN_matrix joint_coe.length a x)
                (MN_matrix joint_coe.length b y)) acc) acc) acc)
      (0 : JointMat joint_coe.length) =
      0 + ((List.range 2).map fun a =>
        ((List.range 2).map fun b =>
          ((List.range' 1 joint_coe.length).map fun x =>
            ((List.range' 1 joint_coe.length).map fun y =>
              bellCoeff joint_coe a_coe b_coe a_val b_val a b x y •
                kron (MN_matrix joint_coe.length a x)
                  (MN_matrix joint_coe.length b y)).sum).sum).sum).sum := by
    have hfn : (fun (acc : JointMat joint_coe.length) a =>
        (List.range 2).foldl (fun acc b =>
          (List.range' 1 joint_coe.length).foldl (fun acc x =>
            (List.range' 1 joint_coe.length).foldl (fun acc y =>
              acc + bellCoeff joint_coe a_coe b_coe a_val b_val a b x y •
                kron (MN_matrix joint_coe.length a x)
                  (MN_matrix joint_coe.length b y)) acc) acc) acc) =
        (fun acc a => acc + ((List.range 2).map fun b =>
          ((List.range' 1 joint_coe.length).map fun x =>
            ((List.range' 1 joint_coe.length).map fun y =>
              bellCoeff joint_coe a_coe b_coe a_val b_val a b x y •
                kron (MN_matrix joint_coe.length a x)
                  (MN_matrix joint_coe.length b y)).sum).sum).sum) := by
      funext acc a
      exact h2 acc a
    rw [hfn]
    exact foldl_add_eq_sum _ _ 0
  rw [h1, zero_add, sum_map_range]
  refine Finset.sum_congr rfl fun a _ => ?_
  rw [sum_map_range]
  refine Finset.sum_congr rfl fun b _ => ?_
  rw [sum_map_range'_Icc]
  refine Finset.sum_congr rfl fun x _ => ?_
  rw [sum_map_range'_Icc]
  refine Finset.sum_congr rfl fun y _ => ?_
  rw [bellCoeff_eq]

/-- Witness for C4 at the concrete one-setting input. -/
theorem C4_witness :
    val01.length = 2 ∧ val01.length = 2 ∧
    ((bellObjRaw joint1 coe1 coe1 val01 val01 =
      ∑ a in Finset.range 2, ∑ b in Finset.range 2,
        ∑ x in Finset.Icc 1 joint1.length, ∑ y in Finset.Icc 1 joint1.length,
          ((joint1.getD (x - 1) []).getD (y - 1) 0 * val01.getD a 0 * val01.getD b 0
            + (if y = 1 then coe1.getD (x - 1) 0 * val01.getD a 0 else 0)
            + (if x = 1 then coe1.getD (y - 1) 0 * val01.getD b 0 else 0)) •
            kron (MN_matrix joint1.length a x) (MN_matrix joint1.length b y)) ∧
    bellObjMat joint1 coe1 coe1 val01 val01 =
      ((1 : ℚ) / 2) • (bellObjRaw joint1 coe1 coe1 val01 val01 +
        Matrix.transpose (bellObjRaw joint1 coe1 coe1 val01 val01))) :=
  ⟨rfl, rfl, C4_bell_objective_assembly joint1 coe1 coe1 val01 val01 rfl rfl⟩

section SubsetCensus

/-- `sublistsLen` commutes with `map`. -/
theorem sublistsLen_map {α β : Type} (f : α → β) : ∀ (n : ℕ) (l : List α),
    List.sublistsLen n (l.map f) = (List.sublistsLen n l).map (List.map f) := by
  intro n l
  induction l generalizing n with
  | nil => cases n <;> simp
  | cons a t ih =>
    cases n with
    | zero => simp
    | succ n =>
      rw [List.map_cons, List.sublistsLen_succ_cons, List.sublistsLen_succ_cons,
        ih, ih, List.map_append]
      congr 1
      simp only [List.map_map]
      apply List.map_congr_left
      intro l _
      simp

/-- Over a duplicate-free base list, length-`sz` subsequences are in
bijection with size-`sz` subsets of the base: each subset is hit exactly
once. -/
theorem countP_toFinset_sublistsLen :
    ∀ (base : List ℕ), base.Nodup → ∀ (sz : ℕ) (s : Finset ℕ),
      (List.sublistsLen sz base).countP (fun l => decide (l.toFinset = s)) =
        if s.card = sz ∧ s ⊆ base.toFinset then 1 else 0 := by
  intro base
  induction base with
  | nil =>
    intro _ sz s
    cases sz with
    | zero =>
      simp only [List.sublistsLen_zero]
      by_cases h : s = ∅
      · subst h
        simp
      · have hc : ¬ (s.card = 0 ∧ s ⊆ List.toFinset []) := by
          rintro ⟨hcard, -⟩
          exact h (Finset.card_eq_zero.mp hcard)
        have hz : List.countP (fun l => decide (l.toFinset = s)) [[]] = 0 := by
          apply List.countP_eq_zero.mpr
          intro l hl
          rw [List.mem_singleton] at hl
          subst hl
          simp only [List.toFinset_nil, decide_eq_true_eq]
          exact fun hcon => h hcon.symm
        rw [hz, if_neg hc]
    | succ n =>
      rw [List.sublistsLen_succ_nil, List.countP_nil, if_neg]
      rintro ⟨hcard, hsub⟩
      rw [List.toFinset_nil, Finset.subset_empty] at hsub
      subst hsub
      simp at hcard
  | cons a t ih =>
    intro hnd sz s
    have hat : a ∉ t := (List.nodup_cons.mp hnd).1
    have hndt : t.Nodup := (List.nodup_cons.mp hnd).2
    cases sz with
    | zero =>
      simp only [List.sublistsLen_zero]
      by_cases h : s = ∅
      · subst h
        simp
      · have hc : ¬ (s.card = 0 ∧ s ⊆ List.toFinset (a :: t)) := by
          rintro ⟨hcard, -⟩
          exact h (Finset.card_eq_zero.mp hcard)
        have hz : List.countP (fun l => decide (l.toFinset = s)) [[]] = 0 := by
          apply List.countP_eq_zero.mpr
          intro l hl
          rw [List.mem_singleton] at hl
          subst hl
          simp only [List.toFinset_nil, decide_eq_true_eq]
          exact fun hcon => h hcon.symm
        rw [hz, if_neg hc]
    | succ n =>
      rw [List.sublistsLen_succ_cons, List.countP_append, List.countP_map]
      by_cases has : a ∈ s
      · have hp1 : (List.sublistsLen (n + 1) t).countP
            (fun l => decide (l.toFinset = s)) = 0 := by
          apply List.countP_eq_zero.mpr
          intro l hl
          rw [List.mem_sublistsLen] at hl
          simp only [decide_eq_true_eq]
          intro heq
          have hal : a ∈ l.toFinset := heq ▸ has
          rw [List.mem_toFinset] at hal
          exact hat (hl.1.subset hal)
        rw [hp1, Nat.zero_add]
        have hcong : (List.sublistsLen n t).countP
              ((fun l => decide (l.toFinset = s)) ∘ (fun l => a :: l)) =
            (List.sublistsLen n t).countP (fun l => decide (l.toFinset = s.erase a)) := by
          apply List.countP_congr
          intro l hl
          rw [List.mem_sublistsLen] at hl
          have hal : a ∉ l.toFinset := by
            rw [List.mem_toFinset]
            exact fun hc => hat (hl.1.subset hc)
          simp only [Function.comp, List.toFinset_cons, decide_eq_true_eq]
          constructor
          · intro hins
            rw [← hins, Finset.erase_insert hal]
          · intro herase
            rw [herase, Finset.insert_erase has]
        rw [hcong, ih hndt n (s.erase a)]
        have hiff : ((s.erase a).card = n ∧ s.erase a ⊆ t.toFinset) ↔
            (s.card = n + 1 ∧ s ⊆ (a :: t).toFinset) := by
          rw [List.toFinset_cons]
          have hce := Finset.card_erase_add_one has
          constructor
          · rintro ⟨hc, hsub⟩
            refine ⟨by omega, fun x hx => ?_⟩
            by_cases hxa : x = a
            · subst hxa
              exact Finset.mem_insert_self _ _
            · exact Finset.mem_insert_of_mem (hsub (Finset.mem_erase.mpr ⟨hxa, hx⟩))
          · rintro ⟨hc, hsub⟩
            refine ⟨by omega, fun x hx => ?_⟩
            rw [Finset.mem_erase] at hx
            rcases Finset.mem_insert.mp (hsub hx.2) with h | h
            · exact absurd h hx.1
            · exact h
        rw [if_congr hiff rfl rfl]
      · have hp2 : (List.sublistsLen n t).countP
            ((fun l => decide (l.toFinset = s)) ∘ (fun l => a :: l)) = 0 := by
          apply List.countP_eq_zero.mpr
          intro l _
          simp only [Function.comp, List.toFinset_cons, decide_eq_true_eq]
          intro heq
          exact has (heq ▸ Finset.mem_insert_self a l.toFinset)
        rw [hp2, Nat.add_zero, ih hndt (n + 1) s]
        have hiff : (s.card = n + 1 ∧ s ⊆ t.toFinset) ↔
            (s.card = n + 1 ∧ s ⊆ (a :: t).toFinset) := by
          rw [List.toFinset_cons]
          constructor
          · rintro ⟨hc, hsub⟩
            exact ⟨hc, hsub.trans (Finset.subset_insert a _)⟩
          · rintro ⟨hc, hsub⟩
            refine ⟨hc, fun x hx => ?_⟩
            rcases Finset.mem_insert.mp (hsub hx) with h | h
            · subst h
              exact absurd hx has
            · exact h
        rw [if_congr hiff rfl rfl]

/-- Summing the indicator of a fixed value over `range' s n`. -/
theorem sum_map_range'_ite_eq (v : ℕ) : ∀ (n s : ℕ),
    ((List.range' s n).map fun x => if v = x then 1 else 0).sum =
      if s ≤ v ∧ v < s + n then 1 else 0 := by
  intro n
  induction n with
  | zero =>
    intro s
    rw [if_neg (by omega)]
    simp
  | succ n ih =>
    intro s
    rw [List.range'_succ, List.map_cons, List.sum_cons, ih (s + 1)]
    by_cases hv : v = s
    · subst hv
      rw [if_pos rfl, if_neg (by omega), if_pos (by omega)]
    · have hiff : (s + 1 ≤ v ∧ v < s + 1 + n) ↔ (s ≤ v ∧ v < s + (n + 1)) := by omega
      rw [if_neg hv, if_congr hiff rfl rfl, Nat.zero_add]

/-- Census of the generated PPT subsets: a set `s` is represented exactly
once among the generated index lists when `1 ≤ |s| ≤ m` and
`s ⊆ [0, 2m - 2)`, and never otherwise. -/
theorem pptSubsets_census (m : ℕ) (s : Finset ℕ) :
    (pptSubsets m).countP (fun l => decide (l.toFinset = s)) =
      if 1 ≤ s.card ∧ s.card ≤ m ∧ s ⊆ Finset.range (2 * m - 2) then 1 else 0 := by
  unfold pptSubsets
  rw [countP_flatMap]
  have hblock : ∀ sz : ℕ,
      ((List.sublistsLen sz (List.range' 1 (2 * m - 2))).map fun l =>
        l.map fun t => t - 1) = List.sublistsLen sz (List.range (2 * m - 2)) := by
    intro sz
    rw [List.range'_eq_map_range, sublistsLen_map, List.map_map]
    have hcomp : (List.map fun t : ℕ => t - 1) ∘ (List.map fun i : ℕ => 1 + i) =
        (id : List ℕ → List ℕ) := by
      funext l
      simp only [Function.comp, List.map_map, id]
      refine Eq.trans (List.map_congr_left fun t _ => ?_) (List.map_id l)
      simp
    rw [hcomp, List.map_id]
  have hmap : ((List.range' 1 m).map fun sz =>
      ((List.sublistsLen sz (List.range' 1 (2 * m - 2))).map fun l =>
        l.map fun t => t - 1).countP (fun l => decide (l.toFinset = s))) =
      (List.range' 1 m).map fun sz =>
        if s.card = sz ∧ s ⊆ Finset.range (2 * m - 2) then 1 else 0 := by
    apply List.map_congr_left
    intro sz _
    have hrange : (List.range (2 * m - 2)).toFinset = Finset.range (2 * m - 2) := by
      ext t
      simp
    rw [hblock sz,
      countP_toFinset_sublistsLen (List.range (2 * m - 2)) (List.nodup_range _) sz s,
      hrange]
  rw [hmap]
  by_cases hq : s ⊆ Finset.range (2 * m - 2)
  · have hmap2 : ((List.range' 1 m).map fun sz =>
        if s.card = sz ∧ s ⊆ Finset.range (2 * m - 2) then 1 else 0) =
        (List.range' 1 m).map fun sz => if s.card = sz then 1 else 0 :=
      List.map_congr_left fun sz _ => if_congr (and_iff_left hq) rfl rfl
    rw [hmap2, sum_map_range'_ite_eq]
    have hiff : (1 ≤ s.card ∧ s.card < 1 + m) ↔
        (1 ≤ s.card ∧ s.card ≤ m ∧ s ⊆ Finset.range (2 * m - 2)) := by
      constructor
      · rintro ⟨h1, h2⟩
        exact ⟨h1, by omega, hq⟩
      · rintro ⟨h1, h2, -⟩
        exact ⟨h1, by omega⟩
    rw [if_congr hiff rfl rfl]
  · have hmap2 : ((List.range' 1 m).map fun sz =>
        if s.card = sz ∧ s ⊆ Finset.range (2 * m - 2) then 1 else 0) =
        (List.range' 1 m).map fun _ => (0 : ℕ) :=
      List.map_congr_left fun sz _ => if_neg (by rintro ⟨-, hc⟩; exact hq hc)
    rw [hmap2, if_neg (by rintro ⟨-, -, hc⟩; exact hq hc)]
    simp

end SubsetCensus

/-- Whether one Bell constraint is the PPT constraint attached to the subset
`s` with dimension list `dims`. -/
def isPptFor (s : Finset ℕ) (dims : List ℕ) : BellConstraint → Bool
  | BellConstraint.pptPsd l d => decide (l.toFinset = s ∧ d = dims)
  | _ => false

/-- C3: the SDP assembled by `bell_inequality_max` maximizes
`trace(Z · obj_mat)` over the symmetric variable `W` subject to exactly:
one `trace(W) = 1`, one `W ⪰ 0`, and — for every subset `S` of `[0, 2m-2)`
with `1 ≤ |S| ≤ m` — exactly one PPT constraint
`partial_transpose(W, S, [4] + [2]*(2(m-1))) ⪰ 0`: one constraint per
subset, not just one per subset size, and nothing else. -/
theorem C3_bell_sdp_constraints (joint_coe : List (List ℚ))
    (a_coe b_coe a_val b_val : List ℚ) (hm : 1 ≤ joint_coe.length) :
    (bell_sdp joint_coe a_coe b_coe a_val b_val).varSymmetric = true ∧
    (bell_sdp joint_coe a_coe b_coe a_val b_val).varDim = 2 ^ (2 * joint_coe.length) ∧
    (bell_sdp joint_coe a_coe b_coe a_val b_val).objMat =
      bellObjMat joint_coe a_coe b_coe a_val b_val ∧
    (bell_sdp joint_coe a_coe b_coe a_val b_val).constraints.countP
      (fun c => decide (c = BellConstraint.traceEqOne)) = 1 ∧
    (bell_sdp joint_coe a_coe b_coe a_val b_val).constraints.countP
      (fun c => decide (c = BellConstraint.wPsd)) = 1 ∧
    (∀ s : Finset ℕ,
      (bell_sdp joint_coe a_coe b_coe a_val b_val).constraints.countP
        (isPptFor s (4 :: List.replicate (2 * (joint_coe.length - 1)) 2)) =
      if 1 ≤ s.card ∧ s.card ≤ joint_coe.length ∧
          s ⊆ Finset.range (2 * joint_coe.length - 2) then 1 else 0) ∧
    (∀ c ∈ (bell_sdp joint_coe a_coe b_coe a_val b_val).constraints,
      c = BellConstraint.traceEqOne ∨ c = BellConstraint.wPsd ∨
      ∃ l : List ℕ,
        c = BellConstraint.pptPsd l (4 :: List.replicate (2 * (joint_coe.length - 1)) 2) ∧
        1 ≤ l.toFinset.card ∧ l.toFinset.card ≤ joint_coe.length ∧
        l.toFinset ⊆ Finset.range (2 * joint_coe.length - 2)) := by
  have hcs : (bell_sdp joint_coe a_coe b_coe a_val b_val).constraints =
      [BellConstraint.traceEqOne, BellConstraint.wPsd] ++
        (pptSubsets joint_coe.length).map fun S =>
          BellConstraint.pptPsd S (4 :: List.replicate (2 * (joint_coe.length - 1)) 2) := rfl
  refine ⟨rfl, rfl, rfl, ?_, ?_, ?_, ?_⟩
  · rw [hcs, List.countP_append]
    have hmap0 : ((pptSubsets joint_coe.length).map fun S =>
        BellConstraint.pptPsd S (4 :: List.replicate (2 * (joint_coe.length - 1)) 2)).countP
        (fun c => decide (c = BellConstraint.traceEqOne)) = 0 := by
      apply List.countP_eq_zero.mpr
      intro c hc
      rw [List.mem_map] at hc
      obtain ⟨S, -, rfl⟩ := hc
      simp
    rw [hmap0, Nat.add_zero]
    rfl
  · rw [hcs, List.countP_append]
    have hmap0 : ((pptSubsets joint_coe.length).map fun S =>
        BellConstraint.pptPsd S (4 :: List.replicate (2 * (joint_coe.length - 1)) 2)).countP
        (fun c => decide (c = BellConstraint.wPsd)) = 0 := by
      apply List.countP_eq_zero.mpr
      intro c hc
      rw [List.mem_map] at hc
      obtain ⟨S, -, rfl⟩ := hc
      simp
    rw [hmap0, Nat.add_zero]
    rfl
  · intro s
    rw [hcs, List.countP_append, List.countP_map]
    have hfront : List.countP
        (isPptFor s (4 :: List.replicate (2 * (joint_coe.length - 1)) 2))
        [BellConstraint.traceEqOne, BellConstraint.wPsd] = 0 := rfl
    rw [hfront, Nat.zero_add]
    have hcong : (pptSubsets joint_coe.length).countP
          ((isPptFor s (4 :: List.replicate (2 * (joint_coe.length - 1)) 2)) ∘
            (fun S => BellConstraint.pptPsd S
              (4 :: List.replicate (2 * (joint_coe.length - 1)) 2))) =
        (pptSubsets joint_coe.length).countP (fun l => decide (l.toFinset = s)) := by
      apply List.countP_congr
      intro S _
      simp [isPptFor]
    rw [hcong, pptSubsets_census]
  · intro c hc
    rw [hcs] at hc
    rcases List.mem_append.mp hc with hc2 | hc2
    · rcases List.mem_cons.mp hc2 with h | h
      · exact Or.inl h
      · rcases List.mem_cons.mp h with h2 | h2
        · exact Or.inr (Or.inl h2)
        · exact absurd h2 (List.not_mem_nil c)
    · rw [List.mem_map] at hc2
      obtain ⟨S, hS, rfl⟩ := hc2
      have hpos : 0 < (pptSubsets joint_coe.length).countP
          (fun l => decide (l.toFinset = S.toFinset)) :=
        List.countP_pos.mpr ⟨S, hS, by simp⟩
      rw [pptSubsets_census] at hpos
      have hcond : 1 ≤ S.toFinset.card ∧ S.toFinset.card ≤ joint_coe.length ∧
          S.toFinset ⊆ Finset.range (2 * joint_coe.length - 2) := by
        by_contra hcon
        rw [if_neg hcon] at hpos
        exact absurd hpos (lt_irrefl 0)
      exact Or.inr (Or.inr ⟨S, rfl, hcond.1, hcond.2.1, hcond.2.2⟩)

/-- Witness for C3 at the one-setting concrete input. -/
theorem C3_witness :
    1 ≤ joint1.length ∧
    ((bell_sdp joint1 coe1 coe1 val01 val01).varSymmetric = true ∧
    (bell_sdp joint1 coe1 coe1 val01 val01).varDim = 2 ^ (2 * joint1.length) ∧
    (bell_sdp joint1 coe1 coe1 val01 val01).objMat =
      bellObjMat joint1 coe1 coe1 val01 val01 ∧
    (bell_sdp joint1 coe1 coe1 val01 val01).constraints.countP
      (fun c => decide (c = BellConstraint.traceEqOne)) = 1 ∧
    (bell_sdp joint1 coe1 coe1 val01 val01).constraints.countP
      (fun c => decide (c = BellConstraint.wPsd)) = 1 ∧
    (∀ s : Finset ℕ,
      (bell_sdp joint1 coe1 coe1 val01 val01).constraints.countP
        (isPptFor s (4 :: List.replicate (2 * (joint1.length - 1)) 2)) =
      if 1 ≤ s.card ∧ s.card ≤ joint1.length ∧
          s ⊆ Finset.range (2 * joint1.length - 2) then 1 else 0) ∧
    (∀ c ∈ (bell_sdp joint1 coe1 coe1 val01 val01).constraints,
      c = BellConstraint.traceEqOne ∨ c = BellConstraint.wPsd ∨
      ∃ l : List ℕ,
        c = BellConstraint.pptPsd l (4 :: List.replicate (2 * (joint1.length - 1)) 2) ∧
        1 ≤ l.toFinset.card ∧ l.toFinset.card ≤ joint1.length ∧
        l.toFinset ⊆ Finset.range (2 * joint1.length - 2))) :=
  ⟨le_refl 1, C3_bell_sdp_constraints joint1 coe1 coe1 val01 val01 (le_refl 1)⟩
